import Mathlib

/-!
Verification model of the knex-migrator migration engine.

The embedding follows src/lib/index.js (the KnexMigrator prototype:
integrityCheck, migrate, migrateTo, beforeEachTask, afterEachTask, lock,
unlock, isDatabaseOK) and, for the implicit-commit executor, the
alternative implementation in src/unnamed/part_000 (transactional).
The database is modelled as the in-memory contents of the migrations
ledger table (and, for the transactional executor, the full list of
committed statements); knex transactions are modelled as an explicit
buffer that is either committed or discarded.
-/

namespace KM

/-- A row of the migrations ledger table, as created by
createMigrationsTable (src/lib/index.js lines 494-513): a task name, the
version the task belongs to, and the configured current version at
insertion time. -/
structure MigRow where
  name : String
  version : String
  currentVersion : String
deriving DecidableEq, Repr

/-- A migration task file as discovered on disk. Task bodies are external
modules consumed through an abstract execute capability; the model keeps
the task name and whether the body raises when run. Executed bodies are
traced by name. -/
structure TaskFile where
  name : String
  fails : Bool
deriving DecidableEq, Repr

/-- The migration directory tree. utils.readTasks and utils.readFolders
are not among the sources under verification; per the spec (section 4.1)
readTasks returns the ordered task list of one version folder and
readFolders the ordered list of version subfolder names. A version folder
maps its name to its ordered tasks. -/
structure Disk where
  initTasks : List TaskFile
  versionFolders : List (String × List TaskFile)
deriving DecidableEq, Repr

/-- The error taxonomy of lib/errors.js as observed through
src/lib/index.js: the recoverable already-recorded signal
(MigrationExistsError), the lock contention error (MigrationsAreLocked),
a failed migration script (MigrationScript, carrying the task name), a
missing migration directory (code MIGRATION_PATH), the code-bearing
DatabaseIsNotOkError, and a generic error for everything else (hook
failures, driver errors). -/
inductive MigErr where
  | migrationExists
  | migrationsLocked
  | migrationScript (task : String)
  | migrationPath (version : String)
  | dbNotOk (code : String)
  | generic (msg : String)
deriving DecidableEq, Repr

/-- Expected-versus-actual counts for one version, the per-version entry
of the integrity check result. -/
structure VersionInfo where
  expected : Nat
  actual : Nat
deriving DecidableEq, Repr

/-! ## Version comparator and folder-name parsing -/

/-- Characters accepted by the folder-name version pattern: the regex
([\d._]+) of integrityCheck (src/lib/index.js line 665). -/
def isVerChar (c : Char) : Bool := c.isDigit || c == '.' || c == '_'

/-- First maximal run of version characters in a character list, matching
how the regex ([\d._]+) scans a folder name; none when the name contains
no such character. -/
def firstVerRun : List Char → Option (List Char)
  | [] => none
  | c :: rest =>
    if isVerChar c then some (c :: rest.takeWhile isVerChar)
    else firstVerRun rest

/-- The numeric version extracted from a version folder name, e.g.
"1.1-members" becomes "1.1"; none when the name has no numeric run, in
which case integrityCheck logs a warning and skips the folder. -/
def parseFolderVersion (s : String) : Option String :=
  (firstVerRun s.data).map List.asString

/-- Split a character list at separators, keeping empty pieces, the way
a string splits into components. -/
def splitChars (sep : Char → Bool) : List Char → List (List Char)
  | [] => [[]]
  | c :: cs =>
    if sep c then [] :: splitChars sep cs
    else
      match splitChars sep cs with
      | [] => [[c]]
      | r :: rs => (c :: r) :: rs

/-- The numeric value of a decimal digit run; none when empty or any
character is not a digit, matching String.toNat?. -/
def natFromChars (cs : List Char) : Option Nat :=
  if cs.isEmpty then none
  else
    cs.foldl
      (fun acc c =>
        match acc with
        | some n => if c.isDigit then some (n * 10 + (c.toNat - 48)) else none
        | none => none)
      (some 0)

/-- Modelled from the spec (section 4.2): utils.isGreaterThanVersion is
not among the sources under verification. Version strings are
dot/underscore-separated numeric components compared left to right,
missing trailing components counting as zero. Components that are not
numeric count as zero. -/
def versionParts (s : String) : List Nat :=
  (splitChars (fun c => c == '.' || c == '_') s.data).map
    (fun t => (natFromChars t).getD 0)

/-- Modelled from the spec (section 4.2): component-wise strictly-greater
comparison with zero padding for missing trailing components. The first
argument is the candidate greater version; once it runs out of
components it is padded with zeros and can no longer be strictly
greater. -/
def gtParts : List Nat → List Nat → Bool
  | [], _ => false
  | a :: as, [] => if 0 < a then true else gtParts as []
  | a :: as, b :: bs =>
    if b < a then true else if a < b then false else gtParts as bs

/-- Modelled from the spec (section 4.2): utils.isGreaterThanVersion,
called as isGreaterThanVersion with a smallerVersion and a greaterVersion
argument, decides whether the second is strictly greater than the
first. -/
def isGreaterThanVersion (smaller greater : String) : Bool :=
  gtParts (versionParts greater) (versionParts smaller)

/-! ## Ledger queries -/

/-- Whether the ledger holds a row for the (name, version) pair: the
lookup of beforeEachTask (src/lib/index.js lines 594-611), which loads
the migrations table and searches it for a row with this name and
version. -/
def recordedIn (led : List MigRow) (n v : String) : Bool :=
  led.any (fun r => r.name == n && r.version == v)

/-- The folder entry of a version in the tree, by exact folder name:
utils.readTasks applied to migrationPath/subfolder/version. -/
def lookupFolder (disk : Disk) (v : String) : Option (List TaskFile) :=
  (disk.versionFolders.find? (fun p => p.1 == v)).map (fun p => p.2)

/-- The baseline stored on the init ledger rows: integrityCheck
(src/lib/index.js line 722) reads currentVersion off the first row whose
version is init; none when the database holds no init row. -/
def initBaseline (ledger : List MigRow) : Option String :=
  ((ledger.filter (fun r => r.version == "init")).head?).map
    (fun r => r.currentVersion)

/-! ## Integrity check (src/lib/index.js lines 636-760) -/

/-- Recursion worker of dedupKeepFirst, carrying the names already
seen. -/
def dedupAux (seen : List String) : List String → List String
  | [] => []
  | x :: xs =>
    if seen.contains x then dedupAux seen xs
    else x :: dedupAux (x :: seen) xs

/-- Keep the first occurrence of each name, dropping later duplicates:
assigning operations[folder] twice in a JS object keeps a single key at
its first insertion position. -/
def dedupKeepFirst (l : List String) : List String := dedupAux [] l

/-- The version keys examined by integrityCheck, in insertion order: the
init pseudo-version always first (line 652), then each versions subfolder
with its numeric version extracted, unparseable folders dropped with a
warning (lines 661-671). -/
def parsedFolders (disk : Disk) : List String :=
  dedupKeepFirst (("init" :: disk.versionFolders.map Prod.fst).filterMap
    (fun f => if f == "init" then some "init" else parseFolderVersion f))

/-- Expected and actual counts of one version key, from the result loop
of integrityCheck (src/lib/index.js lines 716-743): actual is the number
of ledger rows for the version; expected is the number of init task
files for init, and for any other version the number of task files on
disk when the version is strictly greater than the baseline recorded at
init time, otherwise the actual count itself. When the database holds no
init row the baseline is absent and any version counts as newer than it
(utils.isGreaterThanVersion is not among the sources; in practice an
uninitialised database fails the ledger query before reaching this
point). readTasks on a missing non-init version directory raises the
MIGRATION_PATH error, uncaught here. -/
def expectedFor (disk : Disk) (baseline : Option String) (ledger : List MigRow)
    (v : String) : Except MigErr VersionInfo :=
  let actual := (ledger.filter (fun r => r.version == v)).length
  if v == "init" then
    .ok ⟨disk.initTasks.length, actual⟩
  else if (match baseline with
           | some b => isGreaterThanVersion b v
           | none => true) then
    match lookupFolder disk v with
    | some ts => .ok ⟨ts.length, actual⟩
    | none => .error (.migrationPath v)
  else
    .ok ⟨actual, actual⟩

/-- The per-version result pairs in insertion order, before the future
version filter: Promise.props over the ledger queries followed by the
result loop of integrityCheck. -/
def collectInfos (disk : Disk) (baseline : Option String) (ledger : List MigRow) :
    List String → Except MigErr (List (String × VersionInfo))
  | [] => .ok []
  | v :: vs =>
    match expectedFor disk baseline ledger v with
    | .error e => .error e
    | .ok i =>
      match collectInfos disk baseline ledger vs with
      | .error e => .error e
      | .ok rest => .ok ((v, i) :: rest)

/-- The full integrity result before the future-version filter. -/
def integrityInfos (disk : Disk) (ledger : List MigRow) :
    Except MigErr (List (String × VersionInfo)) :=
  collectInfos disk (initBaseline ledger) ledger (parsedFolders disk)

/-- Whether an entry is deleted by the future-version pass of
integrityCheck (src/lib/index.js lines 676-680 and 746-756): with a
configured current version and no force flag, a version strictly greater
than the configured version whose actual count differs from its expected
count is removed from the result with a warning. -/
def futureDrop (cv : String) (force : Bool) (p : String × VersionInfo) : Bool :=
  !(cv == "") && !force && isGreaterThanVersion cv p.1
    && !(p.2.actual == p.2.expected)

/-- integrityCheck (src/lib/index.js lines 636-760): expected and actual
counts per version key, with drifted future versions deleted unless
force is set. The driver-level errno translations (lines 684-711) concern
a missing database or table, outside this in-memory model. -/
def integrityCheck (disk : Disk) (ledger : List MigRow) (cv : String)
    (force : Bool) : Except MigErr (List (String × VersionInfo)) :=
  match integrityInfos disk ledger with
  | .error e => .error e
  | .ok infos => .ok (infos.filter (fun p => !futureDrop cv force p))

/-! ## Task execution and migrateTo (src/lib/index.js lines 321-465) -/

/-- The optional lifecycle hook modules loaded from the migration path.
A hook is external user code; the model keeps its outcome when invoked. -/
structure Hooks where
  before : Option (Except MigErr Unit)
  after : Option (Except MigErr Unit)
  beforeEach : Option (Except MigErr Unit)
  afterEach : Option (Except MigErr Unit)

/-- The hook set when no hook modules are present. -/
def trivialHooks : Hooks := ⟨none, none, none, none⟩

/-- Run an optional hook: absent hooks succeed. -/
def hookRun : Option (Except MigErr Unit) → Except MigErr Unit
  | none => .ok ()
  | some r => r

/-- One task of migrateTo (src/lib/index.js lines 359-423), with the
single catch handler at the end of the per-task chain: beforeEachTask
raises the already-recorded signal when a ledger row for (name, version)
exists, which the catch converts into a skip; otherwise the beforeEach
hook, the task body, the afterEachTask insert and the afterEach hook run
in order, and any other error (a raised task body, a hook failure, the
vendor too-long-key errno included) is wrapped into a MigrationScript
error naming the task. Returns the executed task name, or none on a
skip, with the ledger after the step. -/
def runTask (cv version : String) (hooks : Hooks) (t : TaskFile)
    (led : List MigRow) : Except MigErr (Option String × List MigRow) :=
  let chain : Except MigErr (List MigRow) :=
    if recordedIn led t.name version then .error .migrationExists
    else match hookRun hooks.beforeEach with
      | .error e => .error e
      | .ok _ =>
        if t.fails then .error (.generic t.name)
        else match hookRun hooks.afterEach with
          | .error e => .error e
          | .ok _ => .ok (led ++ [⟨t.name, version, cv⟩])
  match chain with
  | .ok led' => .ok (some t.name, led')
  | .error .migrationExists => .ok (none, led)
  | .error _ => .error (.migrationScript t.name)

/-- Promise.each over the task list of one version: accumulates executed
task names, skipped task names and the ledger; stops at the first fatal
error. -/
def runTasks (cv version : String) (hooks : Hooks) :
    List TaskFile → List MigRow → List String → List String →
    Except MigErr (List String × List String × List MigRow)
  | [], led, ex, sk => .ok (ex, sk, led)
  | t :: ts, led, ex, sk =>
    match runTask cv version hooks t led with
    | .ok (some n, led') => runTasks cv version hooks ts led' (ex ++ [n]) sk
    | .ok (none, led') => runTasks cv version hooks ts led' ex (sk ++ [t.name])
    | .error e => .error e

/-- One version folder of the init backfill (src/lib/index.js lines
447-462): for each task file of the folder, a ledger row is inserted
unless a row with the same name already exists — the lookup filters the
migrations table on the name column alone and ignores the version
column. -/
def backfillVersion (cv fv : String) (files : List TaskFile)
    (led : List MigRow) : List MigRow :=
  files.foldl
    (fun l f =>
      if l.any (fun r => r.name == f.name) then l
      else l ++ [⟨f.name, fv, cv⟩])
    led

/-- The init backfill sweep (src/lib/index.js lines 429-463): every
version folder on disk, in order, has ledger rows inserted for its task
files so a freshly initialised database is not considered behind; rows
are inserted under the folder name as version. A missing versions folder
contributes nothing. -/
def initBackfill (disk : Disk) (cv : String) (led : List MigRow) : List MigRow :=
  disk.versionFolders.foldl (fun l p => backfillVersion cv p.1 p.2 l) led

/-- migrateTo (src/lib/index.js lines 321-465): reads the task list of
the version (a missing init directory yields the empty list, a missing
non-init directory raises the MIGRATION_PATH error), applies the only or
skip selection (a falsy 0 counts as absent; tasks[only - 1] out of range
leaves an undefined entry whose field access raises a TypeError), runs
the tasks, and for an init run with no skipped task performs the
backfill sweep. Returns the executed task names and the final ledger. -/
def migrateTo (disk : Disk) (cv version : String) (only skip : Option Nat)
    (hooks : Hooks) (ledger : List MigRow) :
    Except MigErr (List String × List MigRow) :=
  match (if version == "init" then some disk.initTasks
         else lookupFolder disk version) with
  | none => .error (.migrationPath version)
  | some tasks =>
    let only := match only with | some 0 => none | x => x
    let skp := match skip with | some 0 => none | x => x
    match (match only with
           | some n =>
             match tasks[n - 1]? with
             | some t => some [t]
             | none => none
           | none =>
             some (match skp with
                   | some n => tasks.eraseIdx (n - 1)
                   | none => tasks)) with
    | none => .error (.generic "TypeError")
    | some tasks =>
      match runTasks cv version hooks tasks ledger [] [] with
      | .error e => .error e
      | .ok (ex, sk, led') =>
        if version == "init" && sk.isEmpty then
          .ok (ex, initBackfill disk cv led')
        else
          .ok (ex, led')

/-! ## Lock manager (src/lib/index.js lines 515-592) -/

/-- A row of the migrations_lock table, as created by ensureLockTable:
the sentinel key with acquisition and release timestamps. -/
structure LockRow where
  lock_key : String
  acquired_at : Option String
  released_at : Option String
deriving DecidableEq, Repr

/-- lock (src/lib/index.js lines 547-580): reads the sentinel row for
update and logs it; the branch that would fail with MigrationsAreLocked
when the row is held, and the update marking it acquired, are commented
out in the source, so the call always succeeds and leaves the table
unchanged. -/
def lock (rows : List LockRow) : Except MigErr Unit × List LockRow :=
  let _data := rows.filter (fun r => r.lock_key == "km01")
  (.ok (), rows)

/-! ## migrate (src/lib/index.js lines 170-315) -/

/-- Options of a migrate call: the requested version, the only task
ordinal, and the force flag. -/
structure MigOpts where
  version : Option String
  only : Option Nat
  force : Bool
deriving DecidableEq, Repr

/-- Promise.each over the versions needing work: each pending version is
migrated with migrateTo, executed tasks accumulating as (version, task)
pairs. -/
def runVersions (disk : Disk) (cv : String) (hooks : Hooks)
    (onlyFile : Option Nat) :
    List String → List MigRow → List (String × String) →
    Except MigErr (List (String × String) × List MigRow)
  | [], led, tr => .ok (tr, led)
  | v :: vs, led, tr =>
    match migrateTo disk cv v onlyFile none hooks led with
    | .ok (ex, led') =>
      runVersions disk cv hooks onlyFile vs led'
        (tr ++ ex.map (fun n => (v, n)))
    | .error e => .error e

/-- The transaction body of migrate (src/lib/index.js lines 204-276):
lock (whose acquire check is disabled, see lock above), integrity check,
collection of the versions whose expected and actual counts differ (the
requested version does not restrict this collection; it only feeds a
warning), then — when work is pending — the before hook, each pending
version through migrateTo, and the after hook. -/
def migrateBody (disk : Disk) (cv : String) (hooks : Hooks)
    (onlyFile : Option Nat) (force : Bool) (ledger : List MigRow) :
    Except MigErr (List (String × String) × List MigRow) :=
  match integrityCheck disk ledger cv force with
  | .error e => .error e
  | .ok res =>
    let pending :=
      (res.filter (fun p => !(p.2.expected == p.2.actual))).map Prod.fst
    if pending.isEmpty then .ok ([], ledger)
    else
      match hookRun hooks.before with
      | .error e => .error e
      | .ok _ =>
        match runVersions disk cv hooks onlyFile pending ledger [] with
        | .error e => .error e
        | .ok (tr, led') =>
          match hookRun hooks.after with
          | .error e => .error e
          | .ok _ => .ok (tr, led')

/-- The observable outcome of one migrate or init run: the resolved
value or the propagated error, the committed ledger after the run (the
transaction rolls back every insert when the run fails), and whether the
unlock operation was invoked on the way out. -/
structure RunOutcome (α : Type) where
  result : Except MigErr α
  ledger : List MigRow
  unlockCalled : Bool

/-- migrate (src/lib/index.js lines 170-315): an only ordinal supplied
without an explicit version is discarded (lines 180-182); the body runs
inside one transaction; on success unlock is invoked and the transaction
commits; on failure the error is rethrown and the transaction rolls
back, unlock being invoked first unless the error is MigrationsAreLocked
(lines 277-287), which is rethrown without unlocking. -/
def migrate (disk : Disk) (ledger : List MigRow) (cv : String)
    (hooks : Hooks) (opts : MigOpts) : RunOutcome (List (String × String)) :=
  let onlyFile := match opts.version with
    | none => none
    | some _ => opts.only
  match migrateBody disk cv hooks onlyFile opts.force ledger with
  | .ok (tr, led') => ⟨.ok tr, led', true⟩
  | .error e =>
    match e with
    | .migrationsLocked => ⟨.error e, ledger, false⟩
    | _ => ⟨.error e, ledger, true⟩

/-- The transaction body of init (src/lib/index.js lines 82-121): lock,
the before hook, the init version through migrateTo (with the only and
skip selections), and the after hook. Database and table creation happen
before the transaction and are the identity on an existing ledger. -/
def initBody (disk : Disk) (cv : String) (hooks : Hooks)
    (only skip : Option Nat) (ledger : List MigRow) :
    Except MigErr (List String × List MigRow) :=
  match hookRun hooks.before with
  | .error e => .error e
  | .ok _ =>
    match migrateTo disk cv "init" only skip hooks ledger with
    | .error e => .error e
    | .ok (ex, led') =>
      match hookRun hooks.after with
      | .error e => .error e
      | .ok _ => .ok (ex, led')

/-- init (src/lib/index.js lines 54-154): the transaction body followed
by the same exit discipline as migrate — unlock on success, unlock then
rethrow on failure, except a MigrationsAreLocked error which is rethrown
without unlocking (lines 110-120). -/
def initRun (disk : Disk) (ledger : List MigRow) (cv : String)
    (hooks : Hooks) (only skip : Option Nat) : RunOutcome (List String) :=
  match initBody disk cv hooks only skip ledger with
  | .ok (ex, led') => ⟨.ok ex, led', true⟩
  | .error e =>
    match e with
    | .migrationsLocked => ⟨.error e, ledger, false⟩
    | _ => ⟨.error e, ledger, true⟩

/-! ## isDatabaseOK (src/lib/index.js lines 767-814) -/

/-- The scan over the non-init entries of the integrity result
(src/lib/index.js lines 788-802): the first version with more expected
than actual rows raises DB_NEEDS_MIGRATION, the first with more actual
than expected raises MIGRATION_STATE_ERROR; init entries are omitted
from this scan. -/
def checkVersions : List (String × VersionInfo) → Except MigErr Unit
  | [] => .ok ()
  | (v, i) :: rest =>
    if v == "init" then checkVersions rest
    else if i.actual < i.expected then .error (.dbNotOk "DB_NEEDS_MIGRATION")
    else if i.expected < i.actual then
      .error (.dbNotOk "MIGRATION_STATE_ERROR")
    else checkVersions rest

/-- The entry of a version in the integrity result. -/
def lookupInfo (res : List (String × VersionInfo)) (v : String) :
    Option VersionInfo :=
  (res.find? (fun p => p.1 == v)).map Prod.snd

/-- isDatabaseOK (src/lib/index.js lines 767-814): the integrity check,
then the init entry raises DB_NOT_INITIALISED when it expects more rows
than it has, then the non-init scan; resolves silently when healthy. -/
def isDatabaseOK (disk : Disk) (ledger : List MigRow) (cv : String) :
    Except MigErr Unit :=
  match integrityCheck disk ledger cv false with
  | .error e => .error e
  | .ok res =>
    match lookupInfo res "init" with
    | some i =>
      if i.actual < i.expected then .error (.dbNotOk "DB_NOT_INITIALISED")
      else checkVersions res
    | none => checkVersions res

/-! ## The transactional executor with implicit-commit handling
(src/unnamed/part_000 lines 143-225) -/

/-- A statement applied to the database by the transactional executor:
either an effect issued by a task body (identified by its text, e.g. the
DDL of src/unnamed/part_001 creating the users table) or a ledger row
insert performed by afterEachTask. -/
inductive Stmt where
  | effect (s : String)
  | ledgerRow (name version : String)
deriving DecidableEq, Repr

/-- A task as seen by the transactional executor of src/unnamed/part_000:
its name, the statements its body issues against the transaction, whether
its resolved value carries the implicitCommits marker (as the task of
src/unnamed/part_001 does after its DDL), and whether the body raises. -/
structure TaskSpec where
  name : String
  effects : List String
  implicitCommits : Bool
  fails : Bool
deriving DecidableEq, Repr

/-- Whether a statement list holds a ledger row for the (name, version)
pair: the beforeEachTask lookup of src/unnamed/part_000 (lines 545-562)
as seen from inside the transaction, i.e. over committed statements plus
the open buffer. -/
def ledgerHas (l : List Stmt) (n v : String) : Bool :=
  l.any (fun s =>
    match s with
    | .ledgerRow n' v' => n' == n && v' == v
    | .effect _ => false)

/-- The statements one completed task leaves behind: its body effects
followed by the afterEachTask ledger row. -/
def taskStmts (v : String) (t : TaskSpec) : List Stmt :=
  t.effects.map .effect ++ [.ledgerRow t.name v]

/-- The transactional executor of src/unnamed/part_000 (lines 143-225)
running a list of task operations for one version, with the non-init
completion path. State is the committed statement list plus the buffer of
the open transaction. Per operation: the beforeEachTask lookup raises the
already-recorded signal, which the catch turns into a skip; a raising
body rejects the run, the rollback discarding the open buffer; otherwise
the body statements enter the buffer — an implicit-commit body (DDL
auto-commit) flushing the buffer to committed as it runs — and
afterEachTask appends the ledger row; a resolved value carrying the
implicitCommits marker then triggers the renew path: the transaction is
committed and the remaining operations restart in a fresh transaction.
With the operations exhausted the transaction commits. Returns the
committed statements and the error of a rejected run. -/
def runOps (version : String) :
    List TaskSpec → List Stmt → List Stmt → List Stmt × Option MigErr
  | [], committed, buffer => (committed ++ buffer, none)
  | t :: rest, committed, buffer =>
    if ledgerHas (committed ++ buffer) t.name version then
      runOps version rest committed buffer
    else if t.fails then
      (committed, some (.migrationScript t.name))
    else if t.implicitCommits then
      runOps version rest
        (committed ++ buffer ++ t.effects.map .effect
          ++ [.ledgerRow t.name version]) []
    else
      runOps version rest committed
        (buffer ++ t.effects.map .effect ++ [.ledgerRow t.name version])

/-! ## Helper lemmas -/

theorem mem_dedupAux {l : List String} {seen : List String} {y : String}
    (h : y ∈ dedupAux seen l) : y ∈ l := by
  induction l generalizing seen with
  | nil => cases h
  | cons x xs ih =>
    simp only [dedupAux] at h
    by_cases hc : seen.contains x
    · rw [if_pos hc] at h
      exact List.mem_cons_of_mem x (ih h)
    · rw [if_neg hc] at h
      rcases List.mem_cons.mp h with h | h
      · exact h ▸ List.mem_cons_self x xs
      · exact List.mem_cons_of_mem x (ih h)

theorem mem_dedupKeepFirst {l : List String} {y : String}
    (h : y ∈ dedupKeepFirst l) : y ∈ l := mem_dedupAux h

theorem dedupAux_not_seen {l : List String} {seen : List String} {y : String}
    (h : y ∈ dedupAux seen l) : y ∉ seen := by
  induction l generalizing seen with
  | nil => cases h
  | cons x xs ih =>
    simp only [dedupAux] at h
    by_cases hc : seen.contains x
    · rw [if_pos hc] at h
      exact ih h
    · rw [if_neg hc] at h
      rcases List.mem_cons.mp h with h | h
      · intro hy
        exact hc (List.elem_iff.mpr (h ▸ hy))
      · intro hy
        exact ih h (List.mem_cons_of_mem x hy)

theorem nodup_dedupAux (l : List String) (seen : List String) :
    (dedupAux seen l).Nodup := by
  induction l generalizing seen with
  | nil => exact List.nodup_nil
  | cons x xs ih =>
    simp only [dedupAux]
    by_cases hc : seen.contains x
    · rw [if_pos hc]; exact ih seen
    · rw [if_neg hc]
      refine List.nodup_cons.mpr ⟨fun hx => ?_, ih (x :: seen)⟩
      exact dedupAux_not_seen hx (List.mem_cons_self x seen)

theorem nodup_dedupKeepFirst (l : List String) : (dedupKeepFirst l).Nodup :=
  nodup_dedupAux l []

theorem collectInfos_ok_mem {disk : Disk} {b : Option String}
    {ledger : List MigRow} {vs : List String}
    {xs : List (String × VersionInfo)}
    (h : collectInfos disk b ledger vs = .ok xs) :
    ∀ p ∈ xs, expectedFor disk b ledger p.1 = .ok p.2 := by
  induction vs generalizing xs with
  | nil =>
    simp only [collectInfos] at h
    cases h
    intro p hp; cases hp
  | cons v vs ih =>
    simp only [collectInfos] at h
    cases he : expectedFor disk b ledger v with
    | error e => rw [he] at h; cases h
    | ok i =>
      rw [he] at h
      cases hc : collectInfos disk b ledger vs with
      | error e => rw [hc] at h; cases h
      | ok rest =>
        rw [hc] at h
        cases h
        intro p hp
        rcases List.mem_cons.mp hp with hp | hp
        · cases hp; exact he
        · exact ih hc p hp

theorem collectInfos_ok_keys {disk : Disk} {b : Option String}
    {ledger : List MigRow} {vs : List String}
    {xs : List (String × VersionInfo)}
    (h : collectInfos disk b ledger vs = .ok xs) :
    xs.map Prod.fst = vs := by
  induction vs generalizing xs with
  | nil => simp only [collectInfos] at h; cases h; rfl
  | cons v vs ih =>
    simp only [collectInfos] at h
    cases he : expectedFor disk b ledger v with
    | error e => rw [he] at h; cases h
    | ok i =>
      rw [he] at h
      cases hc : collectInfos disk b ledger vs with
      | error e => rw [hc] at h; cases h
      | ok rest => rw [hc] at h; cases h; simp [ih hc]

theorem collectInfos_ok_of_forall {disk : Disk} {b : Option String}
    {ledger : List MigRow} {vs : List String}
    (h : ∀ v ∈ vs, ∃ i, expectedFor disk b ledger v = .ok i) :
    ∃ xs, collectInfos disk b ledger vs = .ok xs := by
  induction vs with
  | nil => exact ⟨[], rfl⟩
  | cons v vs ih =>
    obtain ⟨i, hi⟩ := h v (List.mem_cons_self v vs)
    obtain ⟨xs, hxs⟩ := ih (fun w hw => h w (List.mem_cons_of_mem v hw))
    exact ⟨(v, i) :: xs, by simp only [collectInfos, hi, hxs]⟩

theorem assoc_nodup_eq {xs : List (String × VersionInfo)}
    (hnd : (xs.map Prod.fst).Nodup) {v : String} {i j : VersionInfo}
    (hi : (v, i) ∈ xs) (hj : (v, j) ∈ xs) : i = j := by
  induction xs with
  | nil => cases hi
  | cons p ps ih =>
    rw [List.map_cons, List.nodup_cons] at hnd
    rcases List.mem_cons.mp hi with hi | hi <;>
      rcases List.mem_cons.mp hj with hj | hj
    · rw [← hi] at hj; exact (Prod.mk.injEq _ _ _ _ ▸ hj).2.symm ▸ rfl
    · exfalso
      exact hnd.1 (hi ▸ (List.mem_map.mpr ⟨(v, j), hj, rfl⟩))
    · exfalso
      exact hnd.1 (hj ▸ (List.mem_map.mpr ⟨(v, i), hi, rfl⟩))
    · exact ih hnd.2 hi hj

/-! ## C4: the lock acquire check -/

/-- C4. The claim reads: whenever lock acquisition runs while another
migration run presently holds the advisory lock row, the acquire
operation fails with MigrationsLocked; otherwise it marks the sentinel
row acquired. The code does neither: the contention branch and the
acquiring update of lock (src/lib/index.js lines 560-578) are commented
out, so with the sentinel row presently held (acquired and not released)
the call still resolves successfully and leaves the row untouched. The
spec itself flags the disabled check as a development leftover to
restore, so the code, not the claim, is at fault. -/
theorem c4_lock_check_disabled :
    lock [⟨"km01", some "2020-01-01 00:00:00", none⟩] =
      (.ok (), [⟨"km01", some "2020-01-01 00:00:00", none⟩]) := rfl

/-! ## C2: the expected-count rule of the integrity check -/

/-- C2, counterexample. The claim reads: expected equals the number of
task files on disk for V iff V is less than or equal to the baseline
recorded on the init rows, otherwise expected is set equal to the actual
count. In this state the baseline is 1.0 and version 1.1 is strictly
greater than it, so the claim predicts expected = actual = 0; the code
returns expected = 1, the number of task files on disk. -/
theorem c2_counterexample :
    integrityCheck
        ⟨[⟨"1-init", false⟩], [("1.1", [⟨"1-add", false⟩])]⟩
        [⟨"1-init", "init", "1.0"⟩] "1.1" false =
      .ok [("init", ⟨1, 1⟩), ("1.1", ⟨1, 0⟩)]
    ∧ initBaseline [⟨"1-init", "init", "1.0"⟩] = some "1.0"
    ∧ isGreaterThanVersion "1.0" "1.1" = true
    ∧ (⟨1, 0⟩ : VersionInfo).expected ≠ (⟨1, 0⟩ : VersionInfo).actual := by
  exact ⟨rfl, rfl, rfl, by decide⟩

/-- C2, amended: in the integrity result, for every non-init version V,
actual is the ledger row count for V, and expected equals the number of
task files on disk for V iff V is strictly greater than the baseline
recorded on the init ledger rows (an absent baseline counting as below
every version); otherwise expected is set equal to the actual count. -/
theorem c2_expected_direction (disk : Disk) (ledger : List MigRow)
    (cv : String) (force : Bool) (res : List (String × VersionInfo))
    (h : integrityCheck disk ledger cv force = .ok res) :
    ∀ v i, (v, i) ∈ res → v ≠ "init" →
      i.actual = (ledger.filter (fun r => r.version == v)).length ∧
      i.expected =
        (if (match initBaseline ledger with
             | some b => isGreaterThanVersion b v
             | none => true) then ((lookupFolder disk v).getD []).length
         else i.actual) := by
  intro v i hmem hv
  unfold integrityCheck at h
  cases hinf : integrityInfos disk ledger with
  | error e => rw [hinf] at h; cases h
  | ok xs =>
    rw [hinf] at h
    cases h
    have hx : (v, i) ∈ xs := List.mem_of_mem_filter hmem
    have he := collectInfos_ok_mem hinf (v, i) hx
    unfold expectedFor at he
    have hvb : (v == "init") = false := beq_eq_false_iff_ne.mpr hv
    rw [hvb] at he
    simp only [Bool.false_eq_true, if_false] at he
    cases hcond : (match initBaseline ledger with
                   | some b => isGreaterThanVersion b v
                   | none => true) with
    | true =>
      rw [hcond] at he
      simp only [if_true] at he
      cases hlk : lookupFolder disk v with
      | none => rw [hlk] at he; cases he
      | some ts =>
        rw [hlk] at he
        cases he
        simp [hlk]
    | false =>
      rw [hcond] at he
      simp only [Bool.false_eq_true, if_false] at he
      cases he
      simp

/-- C2, witness: the amended rule evaluated at the counterexample state,
where version 1.1 exceeds the baseline 1.0 and expected is the on-disk
task count 1 while actual is 0. -/
theorem c2_witness :
    (⟨1, 0⟩ : VersionInfo).actual =
      (([⟨"1-init", "init", "1.0"⟩] : List MigRow).filter
        (fun r => r.version == "1.1")).length ∧
    (⟨1, 0⟩ : VersionInfo).expected =
      (if (match initBaseline [⟨"1-init", "init", "1.0"⟩] with
           | some b => isGreaterThanVersion b "1.1"
           | none => true) then
        ((lookupFolder ⟨[⟨"1-init", false⟩], [("1.1", [⟨"1-add", false⟩])]⟩
            "1.1").getD []).length
       else (⟨1, 0⟩ : VersionInfo).actual) :=
  c2_expected_direction
    ⟨[⟨"1-init", false⟩], [("1.1", [⟨"1-add", false⟩])]⟩
    [⟨"1-init", "init", "1.0"⟩] "1.1" false
    [("init", ⟨1, 1⟩), ("1.1", ⟨1, 0⟩)] rfl
    "1.1" ⟨1, 0⟩ (by decide) (by decide)

/-! ## C6: the actual-exceeds-expected check of isDatabaseOK -/

theorem checkVersions_ne_ok {l : List (String × VersionInfo)} {v : String}
    {i : VersionInfo} (hmem : (v, i) ∈ l) (hv : v ≠ "init")
    (hlt : i.expected < i.actual) : checkVersions l ≠ .ok () := by
  induction l with
  | nil => cases hmem
  | cons p ps ih =>
    obtain ⟨w, j⟩ := p
    simp only [checkVersions]
    by_cases hw : (w == "init") = true
    · rw [if_pos hw]
      rcases List.mem_cons.mp hmem with hmem | hmem
      · exfalso
        have : v = w := congrArg Prod.fst hmem
        exact hv (this ▸ (beq_iff_eq.mp hw))
      · exact ih hmem
    · rw [if_neg hw]
      by_cases h1 : j.actual < j.expected
      · rw [if_pos h1]; exact fun h => Except.noConfusion h
      · rw [if_neg h1]
        by_cases h2 : j.expected < j.actual
        · rw [if_pos h2]; exact fun h => Except.noConfusion h
        · rw [if_neg h2]
          rcases List.mem_cons.mp hmem with hmem | hmem
          · exfalso
            have hji : j = i := (congrArg Prod.snd hmem).symm
            exact h2 (hji ▸ hlt)
          · exact ih hmem

theorem checkVersions_state_error {l : List (String × VersionInfo)}
    (hle : ∀ p ∈ l, p.1 ≠ "init" → p.2.actual ≤ p.2.expected → p.2.expected = p.2.actual)
    (hex : ∃ p ∈ l, p.1 ≠ "init" ∧ p.2.expected < p.2.actual) :
    checkVersions l = .error (.dbNotOk "MIGRATION_STATE_ERROR") := by
  induction l with
  | nil => obtain ⟨p, hp, _⟩ := hex; cases hp
  | cons p ps ih =>
    obtain ⟨w, j⟩ := p
    simp only [checkVersions]
    by_cases hw : (w == "init") = true
    · rw [if_pos hw]
      refine ih (fun q hq => hle q (List.mem_cons_of_mem _ hq)) ?_
      obtain ⟨q, hq, hq1, hq2⟩ := hex
      rcases List.mem_cons.mp hq with hq | hq
      · exfalso
        exact hq1 ((congrArg Prod.fst hq) ▸ (beq_iff_eq.mp hw))
      · exact ⟨q, hq, hq1, hq2⟩
    · rw [if_neg hw]
      by_cases h1 : j.actual < j.expected
      · exfalso
        have := hle (w, j) (List.mem_cons_self _ _)
          (fun h => hw (beq_iff_eq.mpr h)) (Nat.le_of_lt h1)
        exact Nat.lt_irrefl _ (this ▸ h1)
      · rw [if_neg h1]
        by_cases h2 : j.expected < j.actual
        · rw [if_pos h2]
        · rw [if_neg h2]
          refine ih (fun q hq => hle q (List.mem_cons_of_mem _ hq)) ?_
          obtain ⟨q, hq, hq1, hq2⟩ := hex
          rcases List.mem_cons.mp hq with hq | hq
          · exfalso
            rw [hq] at hq2
            exact h2 hq2
          · exact ⟨q, hq, hq1, hq2⟩

/-- C6, counterexample. The claim reads: for every version in the
integrity result, isDatabaseOK raises the MIGRATION_STATE_ERROR-coded
error whenever actual exceeds expected, and the condition is never
silently accepted. For the init version the code only tests whether
expected exceeds actual and then omits init from the state scan
(src/lib/index.js lines 781 and 788), so a database with two init rows
against one init task on disk — actual 2 against expected 1 — resolves
silently. -/
theorem c6_counterexample :
    integrityCheck ⟨[⟨"a", false⟩], []⟩
        [⟨"a", "init", "1.0"⟩, ⟨"b", "init", "1.0"⟩] "1.0" false =
      .ok [("init", ⟨1, 2⟩)]
    ∧ (1 : Nat) < 2
    ∧ isDatabaseOK ⟨[⟨"a", false⟩], []⟩
        [⟨"a", "init", "1.0"⟩, ⟨"b", "init", "1.0"⟩] "1.0" = .ok () :=
  ⟨rfl, by decide, rfl⟩

/-- C6, amended: for every non-init version in the integrity result with
actual strictly above expected, isDatabaseOK does not resolve silently;
and when the init entry is healthy and no version has pending work (no
entry expects more rows than it has), the raised error is exactly the
MIGRATION_STATE_ERROR-coded one. For the init version itself an excess
of actual rows is silently accepted. -/
theorem c6_state_error :
    (∀ disk ledger cv res v i,
      integrityCheck disk ledger cv false = .ok res →
      (v, i) ∈ res → v ≠ "init" → i.expected < i.actual →
      isDatabaseOK disk ledger cv ≠ .ok ())
    ∧ (∀ disk ledger cv res,
      integrityCheck disk ledger cv false = .ok res →
      (∀ p ∈ res, p.2.actual ≤ p.2.expected → p.2.expected = p.2.actual) →
      (∃ p ∈ res, p.1 ≠ "init" ∧ p.2.expected < p.2.actual) →
      isDatabaseOK disk ledger cv =
        .error (.dbNotOk "MIGRATION_STATE_ERROR")) := by
  constructor
  · intro disk ledger cv res v i hres hmem hv hlt
    unfold isDatabaseOK
    simp only [hres]
    cases hinit : lookupInfo res "init" with
    | some k =>
      simp only [hinit]
      by_cases hk : k.actual < k.expected
      · rw [if_pos hk]; exact fun h => Except.noConfusion h
      · rw [if_neg hk]; exact checkVersions_ne_ok hmem hv hlt
    | none =>
      simp only [hinit]
      exact checkVersions_ne_ok hmem hv hlt
  · intro disk ledger cv res hres hle hex
    unfold isDatabaseOK
    simp only [hres]
    have hscan := checkVersions_state_error
      (fun p hp _ hple => hle p hp hple) hex
    cases hinit : lookupInfo res "init" with
    | some k =>
      have hkmem : ("init", k) ∈ res := by
        unfold lookupInfo at hinit
        cases hf : res.find? (fun p => p.1 == "init") with
        | none => rw [hf] at hinit; cases hinit
        | some q =>
          rw [hf] at hinit
          have hq1 : q.1 = "init" := by
            have := List.find?_some hf
            exact beq_iff_eq.mp (by simpa using this)
          have hq2 : q.2 = k := by
            simpa using hinit
          have := List.mem_of_find?_eq_some hf
          rw [← hq1, ← hq2]
          exact this
      have hki : k.actual ≤ k.expected → k.expected = k.actual :=
        fun h => hle ("init", k) hkmem h
      simp only [hinit]
      by_cases hk : k.actual < k.expected
      · exfalso
        exact Nat.lt_irrefl _ ((hki (Nat.le_of_lt hk)) ▸ hk)
      · rw [if_neg hk]; exact hscan
    | none =>
      simp only [hinit]
      exact hscan

/-- C6, witness: a non-init version 1.1 carrying one ledger row against
zero task files on disk makes isDatabaseOK fail with the
MIGRATION_STATE_ERROR code. -/
theorem c6_witness :
    isDatabaseOK ⟨[⟨"a", false⟩], [("1.1", [])]⟩
        [⟨"a", "init", "1.0"⟩, ⟨"x", "1.1", "1.0"⟩] "1.1" =
      .error (.dbNotOk "MIGRATION_STATE_ERROR") :=
  c6_state_error.2 ⟨[⟨"a", false⟩], [("1.1", [])]⟩
    [⟨"a", "init", "1.0"⟩, ⟨"x", "1.1", "1.0"⟩] "1.1"
    [("init", ⟨1, 1⟩), ("1.1", ⟨0, 1⟩)] rfl
    (by decide) ⟨("1.1", ⟨0, 1⟩), by decide, by decide, by decide⟩

/-! ## C7: dropping drifted future versions -/

/-- C7. Without force, every version strictly greater than the
configured current version whose expected count differs from its actual
count is removed entirely from the integrity result — no entry for it
remains, pending or satisfied; with force set, the result keeps every
computed entry. -/
theorem c7_future_version_drop :
    (∀ disk ledger cv l res v i,
      ¬(cv = "") →
      integrityInfos disk ledger = .ok l →
      integrityCheck disk ledger cv false = .ok res →
      (v, i) ∈ l → isGreaterThanVersion cv v = true →
      i.actual ≠ i.expected →
      ∀ j, (v, j) ∉ res)
    ∧ (∀ disk ledger cv l,
      integrityInfos disk ledger = .ok l →
      integrityCheck disk ledger cv true = .ok l) := by
  constructor
  · intro disk ledger cv l res v i hcv hl hres hmem hgt hne j hj
    unfold integrityCheck at hres
    rw [hl] at hres
    cases hres
    have hjl : (v, j) ∈ l := List.mem_of_mem_filter hj
    have hkeys : l.map Prod.fst = parsedFolders disk := collectInfos_ok_keys hl
    have hnd : (l.map Prod.fst).Nodup := by
      rw [hkeys]; exact nodup_dedupKeepFirst _
    have hij : i = j := assoc_nodup_eq hnd hmem hjl
    have hkeep := List.of_mem_filter hj
    have hdrop : futureDrop cv false (v, j) = true := by
      unfold futureDrop
      have h1 : (cv == "") = false := beq_eq_false_iff_ne.mpr hcv
      have h2 : (j.actual == j.expected) = false :=
        beq_eq_false_iff_ne.mpr (hij ▸ hne)
      simp [h1, h2, hgt]
    rw [hdrop] at hkeep
    cases hkeep
  · intro disk ledger cv l hl
    unfold integrityCheck
    simp only [hl]
    have : ∀ p ∈ l, (!futureDrop cv true p) = true := by
      intro p _
      simp [futureDrop]
    rw [List.filter_eq_self.mpr this]

/-- C7, witness: with the configured version 1.0 the drifted future
version 1.1 is absent from the result, and with force it is kept. -/
theorem c7_witness :
    ("1.1", (⟨1, 0⟩ : VersionInfo)) ∉
      [("init", (⟨1, 1⟩ : VersionInfo))] ∧
    integrityCheck ⟨[⟨"a", false⟩], [("1.1", [⟨"b", false⟩])]⟩
        [⟨"a", "init", "1.0"⟩] "1.0" true =
      .ok [("init", ⟨1, 1⟩), ("1.1", ⟨1, 0⟩)] :=
  ⟨c7_future_version_drop.1 ⟨[⟨"a", false⟩], [("1.1", [⟨"b", false⟩])]⟩
      [⟨"a", "init", "1.0"⟩] "1.0"
      [("init", ⟨1, 1⟩), ("1.1", ⟨1, 0⟩)]
      [("init", ⟨1, 1⟩)] "1.1" ⟨1, 0⟩ (by decide) rfl rfl
      (by decide) (by decide) (by decide) ⟨1, 0⟩,
    c7_future_version_drop.2 ⟨[⟨"a", false⟩], [("1.1", [⟨"b", false⟩])]⟩
      [⟨"a", "init", "1.0"⟩] "1.0"
      [("init", ⟨1, 1⟩), ("1.1", ⟨1, 0⟩)] rfl⟩

/-! ## C5: unlock on every exit path -/

/-- C5, counterexample. The claim reads: on every exit path of a
migration or init run after the lock was taken, unlock is invoked before
the run terminates. The catch handlers of migrate and init
(src/lib/index.js lines 277-287 and 110-120) rethrow a
MigrationsAreLocked error without invoking unlock: here the before hook
of a pending migration raises it after the lock step succeeded, and the
run terminates with unlockCalled still false. -/
theorem c5_counterexample :
    migrate ⟨[⟨"a", false⟩], [("1.1", [⟨"b", false⟩])]⟩
        [⟨"a", "init", "1.0"⟩] "1.1"
        ⟨some (.error .migrationsLocked), none, none, none⟩
        ⟨none, none, false⟩ =
      ⟨.error .migrationsLocked, [⟨"a", "init", "1.0"⟩], false⟩ := rfl

/-- C5, amended: on every exit path of a migrate or init run — success,
typed failure, unexpected failure — the unlock operation is invoked
before the run terminates, except when the propagated error is the
MigrationsAreLocked error, which is rethrown without unlocking. -/
theorem c5_unlock_on_exit :
    (∀ disk ledger cv hooks opts,
      (migrate disk ledger cv hooks opts).result ≠
        .error .migrationsLocked →
      (migrate disk ledger cv hooks opts).unlockCalled = true)
    ∧ (∀ disk ledger cv hooks only skp,
      (initRun disk ledger cv hooks only skp).result ≠
        .error .migrationsLocked →
      (initRun disk ledger cv hooks only skp).unlockCalled = true) := by
  constructor
  · intro disk ledger cv hooks opts h
    unfold migrate at h ⊢
    cases hb : migrateBody disk cv hooks
        (match opts.version with | none => none | some _ => opts.only)
        opts.force ledger with
    | ok p => simp only [hb]
    | error e =>
      simp only [hb] at h ⊢
      cases e
      case migrationsLocked => exact absurd rfl h
      all_goals rfl
  · intro disk ledger cv hooks only skp h
    unfold initRun at h ⊢
    cases hb : initBody disk cv hooks only skp ledger with
    | ok p => simp only [hb]
    | error e =>
      simp only [hb] at h ⊢
      cases e
      case migrationsLocked => exact absurd rfl h
      all_goals rfl

/-- C5, witness: a successful migrate run and a successful init run both
terminate with unlock invoked. -/
theorem c5_witness :
    (migrate ⟨[⟨"a", false⟩], [("1.1", [⟨"b", false⟩])]⟩
        [⟨"a", "init", "1.0"⟩] "1.1" trivialHooks
        ⟨none, none, false⟩).unlockCalled = true
    ∧ (initRun ⟨[⟨"a", false⟩], []⟩ [] "1.0" trivialHooks
        none none).unlockCalled = true :=
  ⟨c5_unlock_on_exit.1 ⟨[⟨"a", false⟩], [("1.1", [⟨"b", false⟩])]⟩
      [⟨"a", "init", "1.0"⟩] "1.1" trivialHooks ⟨none, none, false⟩
      (fun h => Except.noConfusion h),
    c5_unlock_on_exit.2 ⟨[⟨"a", false⟩], []⟩ [] "1.0" trivialHooks
      none none (fun h => Except.noConfusion h)⟩

/-! ## C10: the init backfill matches on name alone -/

theorem backfillVersion_name_preserve {cv fv n : String}
    (files : List TaskFile) (led : List MigRow)
    (h : led.any (fun r => r.name == n) = true) :
    (backfillVersion cv fv files led).filter (fun r => r.name == n) =
        led.filter (fun r => r.name == n)
      ∧ (backfillVersion cv fv files led).any (fun r => r.name == n) = true := by
  induction files generalizing led with
  | nil => exact ⟨rfl, h⟩
  | cons f fs ih =>
    simp only [backfillVersion, List.foldl_cons] at *
    by_cases hf : led.any (fun r => r.name == f.name) = true
    · rw [if_pos hf]
      exact ih led h
    · rw [if_neg hf]
      have hne : (f.name == n) = false := by
        by_contra hfn
        have : f.name = n := by
          cases hfn2 : (f.name == n) with
          | true => exact beq_iff_eq.mp hfn2
          | false => exact absurd hfn2 hfn
        rw [this] at hf
        exact hf h
      have hany : (led ++ [(⟨f.name, fv, cv⟩ : MigRow)]).any
          (fun r => r.name == n) = true := by
        rw [List.any_append]
        simp [h]
      have := ih (led ++ [(⟨f.name, fv, cv⟩ : MigRow)]) hany
      refine ⟨?_, this.2⟩
      rw [this.1, List.filter_append]
      simp [hne]

/-- C10. During the init backfill, the duplicate check before inserting
a ledger row matches on the task name alone, ignoring the version
column: when any existing ledger row carries a given name — whatever its
version — the whole sweep adds no row with that name, so the rows with
that name are exactly the pre-existing ones; in particular a task file
with that name gets no backfill row for its own folder even though the
executor elsewhere identifies tasks by the (name, version) pair. -/
theorem c10_backfill_name_only (disk : Disk) (cv : String)
    (ledger : List MigRow) (n : String) (r : MigRow)
    (hr : r ∈ ledger) (hname : r.name = n) :
    (initBackfill disk cv ledger).filter (fun x => x.name == n) =
      ledger.filter (fun x => x.name == n) := by
  have h0 : ledger.any (fun x => x.name == n) = true :=
    List.any_eq_true.mpr ⟨r, hr, beq_iff_eq.mpr hname⟩
  unfold initBackfill
  suffices hgen : ∀ (folders : List (String × List TaskFile))
      (led : List MigRow), led.any (fun x => x.name == n) = true →
      (folders.foldl (fun l p => backfillVersion cv p.1 p.2 l) led).filter
          (fun x => x.name == n) = led.filter (fun x => x.name == n)
        ∧ (folders.foldl (fun l p => backfillVersion cv p.1 p.2 l) led).any
          (fun x => x.name == n) = true by
    exact (hgen disk.versionFolders ledger h0).1
  intro folders
  induction folders with
  | nil => exact fun led h => ⟨rfl, h⟩
  | cons p ps ih =>
    intro led h
    simp only [List.foldl_cons]
    have hstep := @backfillVersion_name_preserve cv p.1 n p.2 led h
    have := ih (backfillVersion cv p.1 p.2 led) hstep.2
    exact ⟨by rw [this.1, hstep.1], this.2⟩

/-- C10, witness: a row named x recorded under version 1.0 blocks the
backfill row for the task file x of folder 2.0. -/
theorem c10_witness :
    (initBackfill ⟨[], [("2.0", [⟨"x", false⟩])]⟩ "2.0"
        [⟨"x", "1.0", "1.0"⟩]).filter (fun r => r.name == "x") =
      ([⟨"x", "1.0", "1.0"⟩] : List MigRow).filter (fun r => r.name == "x") :=
  c10_backfill_name_only ⟨[], [("2.0", [⟨"x", false⟩])]⟩ "2.0"
    [⟨"x", "1.0", "1.0"⟩] "x" ⟨"x", "1.0", "1.0"⟩ (by decide) rfl

/-! ## runTask and runTasks lemmas -/

theorem runTask_skip {cv v : String} {hooks : Hooks} {t : TaskFile}
    {led : List MigRow} (h : recordedIn led t.name v = true) :
    runTask cv v hooks t led = .ok (none, led) := by
  simp [runTask, h]

theorem runTask_exec {cv v : String} {t : TaskFile} {led : List MigRow}
    (h1 : recordedIn led t.name v = false) (h2 : t.fails = false) :
    runTask cv v trivialHooks t led =
      .ok (some t.name, led ++ [⟨t.name, v, cv⟩]) := by
  simp [runTask, h1, h2, trivialHooks, hookRun]

theorem runTask_error_eq {cv v : String} {hooks : Hooks} {t : TaskFile}
    {led : List MigRow} {e : MigErr}
    (h : runTask cv v hooks t led = .error e) :
    e = .migrationScript t.name := by
  unfold runTask at h
  by_cases h1 : recordedIn led t.name v = true
  · simp only [h1, if_true] at h
    cases h
  · simp only [h1] at h
    cases hb : hookRun hooks.beforeEach with
    | error eb =>
      rw [hb] at h
      cases eb <;> simp_all
    | ok _ =>
      rw [hb] at h
      by_cases h2 : t.fails = true
      · simp only [h2, if_true] at h
        cases h
        rfl
      · simp only [h2] at h
        cases ha : hookRun hooks.afterEach with
        | error ea =>
          rw [ha] at h
          cases ea <;> simp_all
        | ok _ =>
          rw [ha] at h
          cases h

theorem runTasks_ne_exists (cv v : String) (hooks : Hooks)
    (ts : List TaskFile) (led : List MigRow) (ex sk : List String) :
    runTasks cv v hooks ts led ex sk ≠ .error .migrationExists := by
  induction ts generalizing led ex sk with
  | nil => exact fun h => Except.noConfusion h
  | cons t ts ih =>
    intro h
    simp only [runTasks] at h
    cases hr : runTask cv v hooks t led with
    | ok p =>
      rw [hr] at h
      obtain ⟨n?, led'⟩ := p
      cases n? with
      | some n => exact ih led' (ex ++ [n]) sk h
      | none => exact ih led' ex (sk ++ [t.name]) h
    | error e =>
      rw [hr] at h
      cases h
      cases runTask_error_eq hr

theorem runTasks_all_recorded {cv v : String} (hooks : Hooks)
    {ts : List TaskFile} {led : List MigRow}
    (h : ∀ t ∈ ts, recordedIn led t.name v = true) :
    ∀ ex sk, runTasks cv v hooks ts led ex sk =
      .ok (ex, sk ++ ts.map TaskFile.name, led) := by
  induction ts with
  | nil => intro ex sk; simp [runTasks]
  | cons t ts ih =>
    intro ex sk
    have hskip := @runTask_skip cv v hooks t led
      (h t (List.mem_cons_self t ts))
    simp only [runTasks, hskip]
    rw [ih (fun u hu => h u (List.mem_cons_of_mem t hu)) ex (sk ++ [t.name])]
    simp

theorem recordedIn_append (a b : List MigRow) (n v : String) :
    recordedIn (a ++ b) n v = (recordedIn a n v || recordedIn b n v) :=
  List.any_append

theorem runTasks_trivial {cv v : String} {ts : List TaskFile}
    (hnd : (ts.map TaskFile.name).Nodup)
    (hf : ∀ t ∈ ts, t.fails = false) :
    ∀ led ex sk, runTasks cv v trivialHooks ts led ex sk =
      .ok (ex ++ (ts.filter (fun t => !recordedIn led t.name v)).map
             TaskFile.name,
           sk ++ (ts.filter (fun t => recordedIn led t.name v)).map
             TaskFile.name,
           led ++ (ts.filter (fun t => !recordedIn led t.name v)).map
             (fun t => (⟨t.name, v, cv⟩ : MigRow))) := by
  induction ts with
  | nil => intro led ex sk; simp [runTasks]
  | cons t ts ih =>
    intro led ex sk
    rw [List.map_cons, List.nodup_cons] at hnd
    have hfr : ∀ u ∈ ts, u.fails = false :=
      fun u hu => hf u (List.mem_cons_of_mem t hu)
    have hinv : ∀ u ∈ ts, ∀ led2 : List MigRow,
        (∀ x ∈ led2, x.name = t.name) →
        recordedIn (led ++ led2) u.name v = recordedIn led u.name v := by
      intro u hu led2 hled2
      rw [recordedIn_append]
      have : recordedIn led2 u.name v = false := by
        apply List.any_eq_false.mpr
        intro x hx
        have hxu : x.name = t.name := hled2 x hx
        have : ¬(t.name = u.name) := by
          intro hc
          exact hnd.1 (hc ▸ List.mem_map.mpr ⟨u, hu, rfl⟩)
        simp [hxu]
        intro hca
        exact absurd hca this
      rw [this]
      simp
    by_cases hrec : recordedIn led t.name v = true
    · have hskip := @runTask_skip cv v trivialHooks t led hrec
      simp only [runTasks, hskip]
      rw [ih hnd.2 hfr led ex (sk ++ [t.name])]
      simp [List.filter_cons, hrec]
    · have hrec' : recordedIn led t.name v = false :=
        Bool.eq_false_iff.mpr hrec
      have hexec := @runTask_exec cv v t led
        hrec' (hf t (List.mem_cons_self t ts))
      simp only [runTasks, hexec]
      rw [ih hnd.2 hfr (led ++ [(⟨t.name, v, cv⟩ : MigRow)]) (ex ++ [t.name]) sk]
      have hsame : ∀ u ∈ ts,
          recordedIn (led ++ [(⟨t.name, v, cv⟩ : MigRow)]) u.name v =
            recordedIn led u.name v := by
        intro u hu
        exact hinv u hu [(⟨t.name, v, cv⟩ : MigRow)] (by intro x hx; simp at hx; rw [hx])
      have hfilter1 :
          ts.filter (fun u => !recordedIn (led ++ [(⟨t.name, v, cv⟩ : MigRow)]) u.name v) =
            ts.filter (fun u => !recordedIn led u.name v) :=
        List.filter_congr (fun u hu => by rw [hsame u hu])
      have hfilter2 :
          ts.filter (fun u => recordedIn (led ++ [(⟨t.name, v, cv⟩ : MigRow)]) u.name v) =
            ts.filter (fun u => recordedIn led u.name v) :=
        List.filter_congr (fun u hu => by rw [hsame u hu])
      rw [hfilter1, hfilter2]
      simp [List.filter_cons, hrec']

/-! ## migrateTo and migrateBody lemmas -/

theorem migrateTo_ne_exists (disk : Disk) (cv version : String)
    (only skp : Option Nat) (hooks : Hooks) (ledger : List MigRow) :
    migrateTo disk cv version only skp hooks ledger ≠
      .error .migrationExists := by
  intro h
  unfold migrateTo at h
  cases hsrc : (if version == "init" then some disk.initTasks
                else lookupFolder disk version) with
  | none =>
    rw [hsrc] at h
    simp at h
  | some tasks =>
    rw [hsrc] at h
    simp only [] at h
    cases hsel : (match (match only with | some 0 => none | x => x) with
           | some n =>
             match tasks[n - 1]? with
             | some t => some [t]
             | none => none
           | none =>
             some (match (match skp with | some 0 => none | x => x) with
                   | some n => tasks.eraseIdx (n - 1)
                   | none => tasks)) with
    | none =>
      rw [hsel] at h
      simp at h
    | some tasks2 =>
      rw [hsel] at h
      simp only [] at h
      cases hrt : runTasks cv version hooks tasks2 ledger [] [] with
      | error e =>
        rw [hrt] at h
        simp only [] at h
        have he : e = .migrationExists := by injection h
        rw [he] at hrt
        exact runTasks_ne_exists cv version hooks tasks2 ledger [] [] hrt
      | ok p =>
        obtain ⟨ex, sk, led'⟩ := p
        rw [hrt] at h
        simp only [] at h
        by_cases hc : (version == "init" && sk.isEmpty) = true
        · rw [if_pos hc] at h
          exact Except.noConfusion h
        · rw [if_neg hc] at h
          exact Except.noConfusion h

theorem backfillVersion_noop {cv fv : String} {files : List TaskFile}
    {led : List MigRow}
    (h : ∀ f ∈ files, led.any (fun r => r.name == f.name) = true) :
    backfillVersion cv fv files led = led := by
  induction files with
  | nil => rfl
  | cons f fs ih =>
    simp only [backfillVersion, List.foldl_cons,
      h f (List.mem_cons_self f fs), if_true]
    exact ih (fun g hg => h g (List.mem_cons_of_mem f hg))

theorem initBackfill_noop {disk : Disk} {cv : String} {led : List MigRow}
    (h : ∀ p ∈ disk.versionFolders, ∀ f ∈ p.2,
      led.any (fun r => r.name == f.name) = true) :
    initBackfill disk cv led = led := by
  unfold initBackfill
  suffices hgen : ∀ (folders : List (String × List TaskFile)),
      (∀ p ∈ folders, ∀ f ∈ p.2,
        led.any (fun r => r.name == f.name) = true) →
      folders.foldl (fun l p => backfillVersion cv p.1 p.2 l) led = led by
    exact hgen disk.versionFolders h
  intro folders
  induction folders with
  | nil => intro _; rfl
  | cons p ps ih =>
    intro hall
    simp only [List.foldl_cons]
    rw [backfillVersion_noop (hall p (List.mem_cons_self p ps))]
    exact ih (fun q hq => hall q (List.mem_cons_of_mem p hq))

theorem migrateTo_noop_init {disk : Disk} {cv : String} {hooks : Hooks}
    {led : List MigRow}
    (hinitrec : ∀ t ∈ disk.initTasks, recordedIn led t.name "init" = true)
    (hbackfill : ∀ p ∈ disk.versionFolders, ∀ f ∈ p.2,
      led.any (fun r => r.name == f.name) = true) :
    migrateTo disk cv "init" none none hooks led = .ok ([], led) := by
  unfold migrateTo
  simp only [beq_self_eq_true, if_true]
  rw [runTasks_all_recorded hooks hinitrec [] []]
  simp only [List.nil_append]
  cases hi : disk.initTasks with
  | nil =>
    simp only [hi, List.map_nil, List.isEmpty_nil, Bool.and_true, if_true]
    rw [initBackfill_noop hbackfill]
  | cons t ts =>
    simp [hi]

theorem migrateTo_noop_ver {disk : Disk} {cv v : String} {hooks : Hooks}
    {led : List MigRow} {ts : List TaskFile}
    (hv : (v == "init") = false)
    (hlk : lookupFolder disk v = some ts)
    (hrec : ∀ t ∈ ts, recordedIn led t.name v = true) :
    migrateTo disk cv v none none hooks led = .ok ([], led) := by
  unfold migrateTo
  simp only [hv, Bool.false_eq_true, if_false, hlk]
  rw [runTasks_all_recorded hooks hrec [] []]
  simp [hv]

theorem collectInfos_error_eq {disk : Disk} {b : Option String}
    {ledger : List MigRow} {vs : List String} {e : MigErr}
    (h : collectInfos disk b ledger vs = .error e) :
    ∃ w, e = .migrationPath w := by
  induction vs with
  | nil => cases h
  | cons v vs ih =>
    simp only [collectInfos] at h
    cases he : expectedFor disk b ledger v with
    | error e2 =>
      rw [he] at h
      cases h
      unfold expectedFor at he
      by_cases h1 : (v == "init") = true
      · simp only [h1, if_true] at he; cases he
      · simp only [h1, Bool.false_eq_true, if_false] at he
        cases h2 : (match b with
                    | some w => isGreaterThanVersion w v
                    | none => true) with
        | true =>
          rw [h2] at he
          simp only [if_true] at he
          cases h3 : lookupFolder disk v with
          | some ts => rw [h3] at he; cases he
          | none =>
            rw [h3] at he
            cases he
            exact ⟨v, rfl⟩
        | false =>
          rw [h2] at he
          simp only [Bool.false_eq_true, if_false] at he
          cases he
    | ok i =>
      rw [he] at h
      cases hc : collectInfos disk b ledger vs with
      | error e2 =>
        rw [hc] at h
        cases h
        exact ih hc
      | ok rest => rw [hc] at h; cases h

theorem runVersions_ne_exists (disk : Disk) (cv : String) (hooks : Hooks)
    (onlyf : Option Nat) (vs : List String) (led : List MigRow)
    (tr : List (String × String)) :
    runVersions disk cv hooks onlyf vs led tr ≠ .error .migrationExists := by
  induction vs generalizing led tr with
  | nil => exact fun h => Except.noConfusion h
  | cons v vs ih =>
    simp only [runVersions]
    cases hm : migrateTo disk cv v onlyf none hooks led with
    | ok p =>
      obtain ⟨ex, led'⟩ := p
      exact ih led' (tr ++ ex.map (fun n => (v, n)))
    | error e =>
      intro h
      have he : e = .migrationExists := by injection h
      rw [he] at hm
      exact migrateTo_ne_exists disk cv v onlyf none hooks led hm

theorem migrateBody_ne_exists (disk : Disk) (cv : String)
    (onlyf : Option Nat) (force : Bool) (ledger : List MigRow) :
    migrateBody disk cv trivialHooks onlyf force ledger ≠
      .error .migrationExists := by
  intro h
  unfold migrateBody at h
  cases hic : integrityCheck disk ledger cv force with
  | error e =>
    rw [hic] at h
    simp only [] at h
    have he : e = .migrationExists := by injection h
    unfold integrityCheck at hic
    cases hinf : integrityInfos disk ledger with
    | error e2 =>
      rw [hinf] at hic
      simp only [] at hic
      have h3 : e2 = e := by injection hic
      obtain ⟨w, hw⟩ := collectInfos_error_eq hinf
      rw [h3, he] at hw
      cases hw
    | ok infos =>
      rw [hinf] at hic
      simp only [] at hic
      cases hic
  | ok res =>
    rw [hic] at h
    simp only [] at h
    by_cases hp : ((res.filter
        (fun p => !(p.2.expected == p.2.actual))).map Prod.fst).isEmpty = true
    · rw [if_pos hp] at h
      exact Except.noConfusion h
    · rw [if_neg hp] at h
      have hbef : hookRun trivialHooks.before = Except.ok () := rfl
      rw [hbef] at h
      simp only [] at h
      cases hrv : runVersions disk cv trivialHooks onlyf
          ((res.filter (fun p => !(p.2.expected == p.2.actual))).map Prod.fst)
          ledger [] with
      | error e =>
        rw [hrv] at h
        simp only [] at h
        have he : e = .migrationExists := by injection h
        rw [he] at hrv
        exact runVersions_ne_exists disk cv trivialHooks onlyf _ ledger [] hrv
      | ok p =>
        obtain ⟨tr, led'⟩ := p
        rw [hrv] at h
        simp only [] at h
        have haft : hookRun trivialHooks.after = Except.ok () := rfl
        rw [haft] at h
        simp only [] at h
        exact Except.noConfusion h

/-! ## C8: the already-recorded signal is absorbed -/

/-- C8. A task whose pre-check finds an existing ledger row for its
(name, version) pair raises the recoverable MigrationExistsError, which
is fully absorbed inside the executor: first, migrateTo never propagates
that error; second, with no hooks installed and no failing body, a run
of migrateTo over a version executes exactly the unrecorded tasks in
order — each recorded task is skipped while execution continues to the
next task, and only the executed tasks gain ledger rows; third, a
migrate call never surfaces the error to its caller. -/
theorem c8_exists_absorbed :
    (∀ disk cv version only skp hooks ledger,
      migrateTo disk cv version only skp hooks ledger ≠
        .error .migrationExists)
    ∧ (∀ disk cv v ts ledger, (v == "init") = false →
      lookupFolder disk v = some ts →
      (ts.map TaskFile.name).Nodup →
      (∀ t ∈ ts, t.fails = false) →
      migrateTo disk cv v none none trivialHooks ledger =
        .ok ((ts.filter (fun t => !recordedIn ledger t.name v)).map
               TaskFile.name,
             ledger ++ (ts.filter (fun t => !recordedIn ledger t.name v)).map
               (fun t => (⟨t.name, v, cv⟩ : MigRow))))
    ∧ (∀ disk ledger cv opts,
      (migrate disk ledger cv trivialHooks opts).result ≠
        .error .migrationExists) := by
  refine ⟨migrateTo_ne_exists, ?_, ?_⟩
  · intro disk cv v ts ledger hv hlk hnd hf
    unfold migrateTo
    simp only [hv, Bool.false_eq_true, if_false, hlk]
    rw [runTasks_trivial hnd hf ledger [] []]
    simp [hv]
  · intro disk ledger cv opts
    unfold migrate
    cases hb : migrateBody disk cv trivialHooks
        (match opts.version with | none => none | some _ => opts.only)
        opts.force ledger with
    | ok p =>
      simp only [hb]
      exact fun h => Except.noConfusion h
    | error e =>
      simp only [hb]
      intro h
      have he : e = .migrationExists := by
        cases e <;> simp_all
      rw [he] at hb
      exact migrateBody_ne_exists disk cv _ opts.force ledger hb

/-- C8, witness: with the first of two tasks already recorded, migrateTo
skips it, runs the second, records one row, and raises nothing. -/
theorem c8_witness :
    migrateTo ⟨[], [("1.0", [⟨"1-a", false⟩, ⟨"2-b", false⟩])]⟩
        "1.0" "1.0" none none trivialHooks [⟨"1-a", "1.0", "1.0"⟩] =
      .ok (["2-b"], [⟨"1-a", "1.0", "1.0"⟩, ⟨"2-b", "1.0", "1.0"⟩]) :=
  c8_exists_absorbed.2.1 ⟨[], [("1.0", [⟨"1-a", false⟩, ⟨"2-b", false⟩])]⟩
    "1.0" "1.0" [⟨"1-a", false⟩, ⟨"2-b", false⟩] [⟨"1-a", "1.0", "1.0"⟩]
    (by decide) rfl (by decide) (by decide)

/-! ## C9: the only selection -/

theorem migrateTo_only {disk : Disk} {cv v : String} {ts : List TaskFile}
    {n : Nat} {t : TaskFile} {led : List MigRow}
    (hv : (v == "init") = false)
    (hlk : lookupFolder disk v = some ts)
    (hn : n ≠ 0)
    (ht : ts[n - 1]? = some t)
    (hrec : recordedIn led t.name v = false)
    (hf : t.fails = false) :
    migrateTo disk cv v (some n) none trivialHooks led =
      .ok ([t.name], led ++ [⟨t.name, v, cv⟩]) := by
  unfold migrateTo
  simp only [hv, Bool.false_eq_true, if_false, hlk]
  cases n with
  | zero => exact absurd rfl hn
  | succ m =>
    simp only [Nat.add_sub_cancel] at ht ⊢
    simp only [ht]
    rw [@runTasks_trivial cv v [t] (by simp) (by simp [hf]) led [] []]
    simp [hv, List.filter_cons, hrec, runTasks]

/-- C9. With an explicitly requested version and only equal to n, the
run executes exactly the n-th discovered task of the pending version in
1-based file order and records exactly one ledger row; and an only
ordinal supplied without an explicit version is discarded, leaving the
run identical to one without it. The scenario hypotheses pin the
requested version as the single version with pending work and its n-th
task as not yet recorded. -/
theorem c9_only_selection :
    (∀ disk ledger cv hooks onlyf force,
      migrate disk ledger cv hooks ⟨none, onlyf, force⟩ =
        migrate disk ledger cv hooks ⟨none, none, force⟩)
    ∧ (∀ disk ledger cv force res v ts n t,
      integrityCheck disk ledger cv force = .ok res →
      (res.filter (fun p => !(p.2.expected == p.2.actual))).map Prod.fst =
        [v] →
      (v == "init") = false →
      lookupFolder disk v = some ts →
      n ≠ 0 →
      ts[n - 1]? = some t →
      recordedIn ledger t.name v = false →
      t.fails = false →
      migrate disk ledger cv trivialHooks ⟨some v, some n, force⟩ =
        ⟨.ok [(v, t.name)], ledger ++ [⟨t.name, v, cv⟩], true⟩) := by
  constructor
  · intro disk ledger cv hooks onlyf force
    rfl
  · intro disk ledger cv force res v ts n t hic hpend hv hlk hn ht hrec hf
    unfold migrate migrateBody
    simp only [hic]
    rw [hpend]
    simp only [List.isEmpty_cons, Bool.false_eq_true, if_false]
    have hbef : hookRun trivialHooks.before = Except.ok () := rfl
    rw [hbef]
    simp only [runVersions]
    rw [migrateTo_only hv hlk hn ht hrec hf]
    simp only [runVersions]
    have haft : hookRun trivialHooks.after = Except.ok () := rfl
    rw [haft]
    simp

/-- C9, witness: only equal to 2 against a pending version with three
discovered tasks executes exactly the second task and records exactly
one ledger row. -/
theorem c9_witness :
    migrate ⟨[⟨"0-init", false⟩],
        [("1.1", [⟨"1-a", false⟩, ⟨"2-b", false⟩, ⟨"3-c", false⟩])]⟩
      [⟨"0-init", "init", "1.0"⟩] "1.1" trivialHooks
      ⟨some "1.1", some 2, false⟩ =
      ⟨.ok [("1.1", "2-b")],
       [⟨"0-init", "init", "1.0"⟩, ⟨"2-b", "1.1", "1.1"⟩], true⟩ :=
  c9_only_selection.2
    ⟨[⟨"0-init", false⟩],
      [("1.1", [⟨"1-a", false⟩, ⟨"2-b", false⟩, ⟨"3-c", false⟩])]⟩
    [⟨"0-init", "init", "1.0"⟩] "1.1" false
    [("init", ⟨1, 1⟩), ("1.1", ⟨3, 0⟩)] "1.1"
    [⟨"1-a", false⟩, ⟨"2-b", false⟩, ⟨"3-c", false⟩] 2 ⟨"2-b", false⟩
    rfl (by decide) (by decide) rfl (by decide) (by decide) (by decide)
    (by decide)

/-! ## C3: a second migrate run is a no-op -/

theorem recordedIn_any_name {led : List MigRow} {n v : String}
    (h : recordedIn led n v = true) :
    led.any (fun r => r.name == n) = true := by
  obtain ⟨r, hr, hrp⟩ := List.any_eq_true.mp h
  refine List.any_eq_true.mpr ⟨r, hr, ?_⟩
  exact (Bool.and_eq_true_iff.mp hrp).1

theorem parsedFolders_cases {disk : Disk}
    (hpure : ∀ p ∈ disk.versionFolders, parseFolderVersion p.1 = some p.1) :
    ∀ v ∈ parsedFolders disk, v = "init" ∨
      ∃ ts, lookupFolder disk v = some ts ∧ (v, ts) ∈ disk.versionFolders := by
  intro v hv
  have hv2 := mem_dedupKeepFirst hv
  obtain ⟨f, hf, hfv⟩ := List.mem_filterMap.mp hv2
  by_cases hfi : (f == "init") = true
  · left
    rw [if_pos hfi] at hfv
    exact (Option.some.injEq _ _ ▸ hfv).symm
  · right
    rw [if_neg hfi] at hfv
    have hfmem : f ∈ disk.versionFolders.map Prod.fst := by
      rcases List.mem_cons.mp hf with hf | hf
      · exact absurd (beq_iff_eq.mpr hf) hfi
      · exact hf
    obtain ⟨p, hp, hp1⟩ := List.mem_map.mp hfmem
    have hfv2 : f = v := by
      have := hpure p hp
      rw [hp1] at this
      rw [this] at hfv
      exact Option.some.injEq _ _ ▸ hfv
    cases hfind : disk.versionFolders.find? (fun q => q.1 == v) with
    | none =>
      exfalso
      have := List.find?_eq_none.mp hfind p hp
      rw [hp1, hfv2] at this
      simp at this
    | some q =>
      have hq1 : q.1 = v := by
        have := List.find?_some hfind
        exact beq_iff_eq.mp (by simpa using this)
      have hqmem := List.mem_of_find?_eq_some hfind
      refine ⟨q.2, ?_, ?_⟩
      · unfold lookupFolder
        rw [hfind]
        rfl
      · rw [← hq1]
        exact hqmem

theorem runVersions_noop {disk : Disk} {cv : String} {hooks : Hooks}
    {led : List MigRow} {vs : List String}
    (h : ∀ v ∈ vs, migrateTo disk cv v none none hooks led = .ok ([], led)) :
    ∀ tr, runVersions disk cv hooks none vs led tr = .ok (tr, led) := by
  induction vs with
  | nil => intro tr; rfl
  | cons v vs ih =>
    intro tr
    simp only [runVersions, h v (List.mem_cons_self v vs)]
    simp only [List.map_nil, List.append_nil]
    exact ih (fun w hw => h w (List.mem_cons_of_mem v hw)) tr

/-- C3. For every database state in which every task file of every
version folder and of the init folder already has its ledger row,
running migrate — with any requested version, with or without force, and
with no only selection or hooks — is a no-op: it resolves with an empty
execution trace, the ledger is returned unchanged, and the run unlocks.
Each pending version that the integrity diff still reports is walked
task by task, and every task is skipped by the pre-check. -/
theorem c3_migrate_idempotent (disk : Disk) (ledger : List MigRow)
    (cv : String) (ver : Option String) (force : Bool)
    (hpure : ∀ p ∈ disk.versionFolders, parseFolderVersion p.1 = some p.1)
    (hrec : ∀ p ∈ disk.versionFolders, ∀ t ∈ p.2,
      recordedIn ledger t.name p.1 = true)
    (hinit : ∀ t ∈ disk.initTasks, recordedIn ledger t.name "init" = true) :
    migrate disk ledger cv trivialHooks ⟨ver, none, force⟩ =
      ⟨.ok [], ledger, true⟩ := by
  have hbackfill : ∀ p ∈ disk.versionFolders, ∀ f ∈ p.2,
      ledger.any (fun r => r.name == f.name) = true :=
    fun p hp f hf => recordedIn_any_name (hrec p hp f hf)
  have hnoop : ∀ v ∈ parsedFolders disk,
      migrateTo disk cv v none none trivialHooks ledger = .ok ([], ledger) := by
    intro v hv
    by_cases hvi : v = "init"
    · subst hvi
      exact migrateTo_noop_init hinit hbackfill
    · rcases parsedFolders_cases hpure v hv with h | ⟨ts, hlk, hmem⟩
      · exact absurd h hvi
      · exact migrateTo_noop_ver (beq_eq_false_iff_ne.mpr hvi) hlk
          (fun t ht => hrec (v, ts) hmem t ht)
  have hok : ∀ v ∈ parsedFolders disk,
      ∃ i, expectedFor disk (initBaseline ledger) ledger v = .ok i := by
    intro v hv
    by_cases hvi : v = "init"
    · subst hvi
      refine ⟨⟨disk.initTasks.length,
        (ledger.filter (fun r => r.version == "init")).length⟩, ?_⟩
      unfold expectedFor
      simp
    · rcases parsedFolders_cases hpure v hv with h | ⟨ts, hlk, _⟩
      · exact absurd h hvi
      · unfold expectedFor
        have hvb : (v == "init") = false := beq_eq_false_iff_ne.mpr hvi
        simp only [hvb, Bool.false_eq_true, if_false]
        cases hcond : (match initBaseline ledger with
                       | some b => isGreaterThanVersion b v
                       | none => true) with
        | true =>
          simp only [hcond, if_true, hlk]
          exact ⟨_, rfl⟩
        | false =>
          simp only [hcond, Bool.false_eq_true, if_false]
          exact ⟨_, rfl⟩
  obtain ⟨xs, hxs⟩ := collectInfos_ok_of_forall hok
  have hkeys := collectInfos_ok_keys hxs
  have hic : integrityCheck disk ledger cv force =
      .ok (xs.filter (fun p => !futureDrop cv force p)) := by
    unfold integrityCheck integrityInfos
    rw [hxs]
  have hpendmem : ∀ v ∈ (((xs.filter (fun p => !futureDrop cv force p)).filter
      (fun p => !(p.2.expected == p.2.actual))).map Prod.fst),
      v ∈ parsedFolders disk := by
    intro v hv
    obtain ⟨p, hp, hp1⟩ := List.mem_map.mp hv
    have : p ∈ xs := List.mem_of_mem_filter (List.mem_of_mem_filter hp)
    rw [← hkeys]
    exact hp1 ▸ List.mem_map.mpr ⟨p, this, rfl⟩
  unfold migrate migrateBody
  have honly : (match ver with
      | none => none
      | some _ => (none : Option Nat)) = (none : Option Nat) := by
    cases ver <;> rfl
  rw [honly, hic]
  simp only []
  by_cases hp : (((xs.filter (fun p => !futureDrop cv force p)).filter
      (fun p => !(p.2.expected == p.2.actual))).map Prod.fst).isEmpty = true
  · rw [if_pos hp]
  · rw [if_neg hp]
    have hbef : hookRun trivialHooks.before = Except.ok () := rfl
    rw [hbef]
    simp only []
    rw [runVersions_noop (fun v hv => hnoop v (hpendmem v hv)) []]
    simp only []
    have haft : hookRun trivialHooks.after = Except.ok () := rfl
    rw [haft]

/-- C3, witness: a database holding a row for every init task and every
version task makes migrate a no-op with the ledger unchanged. -/
theorem c3_witness :
    migrate ⟨[⟨"0-init", false⟩], [("1.1", [⟨"1-a", false⟩])]⟩
        [⟨"0-init", "init", "1.0"⟩, ⟨"1-a", "1.1", "1.0"⟩] "1.0"
        trivialHooks ⟨none, none, false⟩ =
      ⟨.ok [], [⟨"0-init", "init", "1.0"⟩, ⟨"1-a", "1.1", "1.0"⟩], true⟩ :=
  c3_migrate_idempotent ⟨[⟨"0-init", false⟩], [("1.1", [⟨"1-a", false⟩])]⟩
    [⟨"0-init", "init", "1.0"⟩, ⟨"1-a", "1.1", "1.0"⟩] "1.0" none false
    (by decide) (by decide) (by decide)

/-! ## C1: the implicit-commit boundary of the transactional executor -/

theorem ledgerHas_append (a b : List Stmt) (n v : String) :
    ledgerHas (a ++ b) n v = (ledgerHas a n v || ledgerHas b n v) :=
  List.any_append

theorem ledgerHas_effects (n v : String) (l : List String) :
    ledgerHas (l.map Stmt.effect) n v = false := by
  induction l with
  | nil => rfl
  | cons s l ih =>
    rw [List.map_cons]
    unfold ledgerHas at ih ⊢
    rw [List.any_cons, ih]
    rfl

theorem ledgerHas_row (m w n v : String) :
    ledgerHas [Stmt.ledgerRow m w] n v = (m == n && w == v) := by
  unfold ledgerHas
  rw [List.any_cons, List.any_nil, Bool.or_false]

theorem ledgerHas_taskStmts (t : TaskSpec) (n v : String) :
    ledgerHas (taskStmts v t) n v = (t.name == n) := by
  unfold taskStmts
  rw [ledgerHas_append, ledgerHas_effects, ledgerHas_row]
  simp

theorem ledgerHas_flatten (v n : String) (pre : List TaskSpec) :
    ledgerHas ((pre.map (taskStmts v)).flatten) n v =
      pre.any (fun t => t.name == n) := by
  induction pre with
  | nil => rfl
  | cons t pre ih =>
    rw [List.map_cons, List.flatten_cons, ledgerHas_append,
      ledgerHas_taskStmts, ih, List.any_cons]

theorem any_name_false {pre : List TaskSpec} {n : String}
    (h : n ∉ pre.map TaskSpec.name) :
    pre.any (fun t => t.name == n) = false := by
  apply List.any_eq_false.mpr
  intro t ht hc
  exact h ((beq_iff_eq.mp hc) ▸ List.mem_map.mpr ⟨t, ht, rfl⟩)

theorem names_facts {npre nmid npost : List String} {ntc ntf : String}
    (h : (npre ++ ntc :: (nmid ++ ntf :: npost)).Nodup) :
    npre.Nodup ∧ nmid.Nodup ∧ ntc ∉ npre ∧ ntf ∉ npre ∧ ntf ∉ nmid ∧
      ntc ≠ ntf ∧ (∀ a ∈ nmid, a ∉ npre) ∧ (∀ a ∈ nmid, a ≠ ntc) := by
  rw [List.nodup_append] at h
  obtain ⟨h1, h2, h7⟩ := h
  rw [List.nodup_cons] at h2
  obtain ⟨h2a, h2b⟩ := h2
  rw [List.nodup_append] at h2b
  obtain ⟨h3, _, h6⟩ := h2b
  refine ⟨h1, h3, ?_, ?_, ?_, ?_, ?_, ?_⟩
  · intro hc
    exact h7 hc (List.mem_cons_self _ _)
  · intro hc
    exact h7 hc (List.mem_cons_of_mem _
      (List.mem_append.mpr (Or.inr (List.mem_cons_self _ _))))
  · intro hc
    exact h6 hc (List.mem_cons_self _ _)
  · intro hc
    refine h2a ?_
    rw [hc]
    exact List.mem_append.mpr (Or.inr (List.mem_cons_self _ _))
  · intro a ha hc
    exact h7 hc (List.mem_cons_of_mem _ (List.mem_append.mpr (Or.inl ha)))
  · intro a ha hc
    refine h2a ?_
    rw [← hc]
    exact List.mem_append.mpr (Or.inl ha)

theorem runOps_clean (v : String) (rest : List TaskSpec) :
    ∀ (pre : List TaskSpec) (c b : List Stmt),
      (∀ t ∈ pre, t.fails = false ∧ t.implicitCommits = false) →
      (∀ t ∈ pre, ledgerHas (c ++ b) t.name v = false) →
      ((pre.map TaskSpec.name).Nodup) →
      runOps v (pre ++ rest) c b =
        runOps v rest c (b ++ (pre.map (taskStmts v)).flatten) := by
  intro pre
  induction pre with
  | nil =>
    intro c b _ _ _
    simp
  | cons t pre ih =>
    intro c b hok hfresh hnd
    rw [List.map_cons, List.nodup_cons] at hnd
    have h1 : ledgerHas (c ++ b) t.name v = false :=
      hfresh t (List.mem_cons_self t pre)
    have h2 : t.fails = false := (hok t (List.mem_cons_self t pre)).1
    have h3 : t.implicitCommits = false :=
      (hok t (List.mem_cons_self t pre)).2
    rw [List.cons_append]
    simp only [runOps, h1, h2, h3, Bool.false_eq_true, if_false]
    have hok2 : ∀ u ∈ pre, u.fails = false ∧ u.implicitCommits = false :=
      fun u hu => hok u (List.mem_cons_of_mem t hu)
    have hfresh2 : ∀ u ∈ pre,
        ledgerHas (c ++ (b ++ t.effects.map Stmt.effect ++
          [Stmt.ledgerRow t.name v])) u.name v = false := by
      intro u hu
      have hne : (t.name == u.name) = false := by
        simp only [beq_eq_false_iff_ne]
        intro hc
        exact hnd.1 (hc ▸ List.mem_map.mpr ⟨u, hu, rfl⟩)
      have hu0 := hfresh u (List.mem_cons_of_mem t hu)
      rw [ledgerHas_append] at hu0
      rw [ledgerHas_append, ledgerHas_append, ledgerHas_append,
        ledgerHas_effects, ledgerHas_row]
      rcases Bool.or_eq_false_iff.mp hu0 with ⟨hc, hb⟩
      simp [hc, hb, hne]
    rw [ih c _ hok2 hfresh2 hnd.2]
    congr 1
    simp [taskStmts, List.flatten_cons]

/-- C1. In the transactional executor of src/unnamed/part_000, suppose
the operation list is pre, then a task whose resolved value carries the
implicitCommits marker, then mid, then a failing task, then post, with
pre and mid succeeding without implicit commits, every name fresh in the
committed ledger and pairwise distinct. Then the failed run leaves
committed exactly the initial state plus the statements and ledger rows
of the pre tasks plus the implicit-commit task statements and its own
ledger row: the DDL effects of the implicit-commit task persist, while
mid, the failing task and its successors leave no ledger rows or data.
Conversely — the protection boundary — when the failure comes before any
implicit-commit task, aborting the outer transaction rolls back
everything, leaving the committed state untouched. -/
theorem c1_implicit_commit_boundary :
    (∀ (v : String) (c0 : List Stmt) (pre mid post : List TaskSpec)
        (tc tf : TaskSpec),
      tc.implicitCommits = true → tc.fails = false → tf.fails = true →
      (∀ t ∈ pre, t.fails = false ∧ t.implicitCommits = false) →
      (∀ t ∈ mid, t.fails = false ∧ t.implicitCommits = false) →
      (∀ t ∈ pre ++ tc :: (mid ++ tf :: post),
        ledgerHas c0 t.name v = false) →
      ((pre ++ tc :: (mid ++ tf :: post)).map TaskSpec.name).Nodup →
      runOps v (pre ++ tc :: (mid ++ tf :: post)) c0 [] =
        (c0 ++ (pre.map (taskStmts v)).flatten ++ taskStmts v tc,
         some (.migrationScript tf.name)))
    ∧ (∀ (v : String) (c0 : List Stmt) (pre post : List TaskSpec)
        (tf : TaskSpec),
      tf.fails = true →
      (∀ t ∈ pre, t.fails = false ∧ t.implicitCommits = false) →
      (∀ t ∈ pre ++ tf :: post, ledgerHas c0 t.name v = false) →
      ((pre ++ tf :: post).map TaskSpec.name).Nodup →
      runOps v (pre ++ tf :: post) c0 [] =
        (c0, some (.migrationScript tf.name))) := by
  constructor
  · intro v c0 pre mid post tc tf htc htcf htf hpre hmid hfresh hnd
    rw [List.map_append, List.map_cons, List.map_append,
      List.map_cons] at hnd
    obtain ⟨hndpre, hndmid, htcpre, htfpre, htfmid, htctf, hmidpre,
      hmidtc⟩ := names_facts hnd
    have hfresh0 : ∀ t ∈ pre, ledgerHas (c0 ++ ([] : List Stmt)) t.name v
        = false := by
      intro t ht
      rw [List.append_nil]
      exact hfresh t (List.mem_append.mpr (Or.inl ht))
    rw [runOps_clean v (tc :: (mid ++ tf :: post)) pre c0 [] hpre
      hfresh0 hndpre]
    rw [List.nil_append]
    have h1 : ledgerHas (c0 ++ (pre.map (taskStmts v)).flatten)
        tc.name v = false := by
      rw [ledgerHas_append, ledgerHas_flatten,
        hfresh tc (List.mem_append.mpr (Or.inr (List.mem_cons_self _ _))),
        any_name_false htcpre]
      rfl
    simp only [runOps, h1, htcf, htc, Bool.false_eq_true, if_false,
      if_true]
    have hfreshmid : ∀ u ∈ mid,
        ledgerHas ((c0 ++ (pre.map (taskStmts v)).flatten ++
          tc.effects.map Stmt.effect ++ [Stmt.ledgerRow tc.name v]) ++
          ([] : List Stmt)) u.name v = false := by
      intro u hu
      have humem : u.name ∈ (mid.map TaskSpec.name) :=
        List.mem_map.mpr ⟨u, hu, rfl⟩
      have hupre : u.name ∉ pre.map TaskSpec.name :=
        hmidpre u.name humem
      have hutc : (tc.name == u.name) = false := by
        simp only [beq_eq_false_iff_ne]
        intro hc
        exact (hmidtc u.name humem) hc.symm
      rw [List.append_nil, ledgerHas_append, ledgerHas_append,
        ledgerHas_append, ledgerHas_flatten, ledgerHas_effects,
        ledgerHas_row,
        hfresh u (List.mem_append.mpr (Or.inr (List.mem_cons_of_mem _
          (List.mem_append.mpr (Or.inl hu))))),
        any_name_false hupre]
      simp [hutc]
    rw [runOps_clean v (tf :: post) mid _ [] hmid hfreshmid hndmid]
    rw [List.nil_append]
    have htfmid2 : mid.any (fun t => t.name == tf.name) = false := by
      apply List.any_eq_false.mpr
      intro t ht hc
      exact htfmid ((beq_iff_eq.mp hc) ▸ List.mem_map.mpr ⟨t, ht, rfl⟩)
    have htftc : (tc.name == tf.name) = false :=
      beq_eq_false_iff_ne.mpr htctf
    have h2 : ledgerHas ((c0 ++ (pre.map (taskStmts v)).flatten ++
        tc.effects.map Stmt.effect ++ [Stmt.ledgerRow tc.name v]) ++
        (mid.map (taskStmts v)).flatten) tf.name v = false := by
      rw [ledgerHas_append, ledgerHas_append, ledgerHas_append,
        ledgerHas_append, ledgerHas_flatten, ledgerHas_flatten,
        ledgerHas_effects, ledgerHas_row,
        hfresh tf (List.mem_append.mpr (Or.inr (List.mem_cons_of_mem _
          (List.mem_append.mpr (Or.inr (List.mem_cons_self _ _)))))),
        any_name_false htfpre, htfmid2]
      simp [htftc]
    simp only [runOps, h2, htf, Bool.false_eq_true, if_false, if_true]
    congr 1
    simp [taskStmts]
  · intro v c0 pre post tf htf hpre hfresh hnd
    rw [List.map_append, List.map_cons, List.nodup_append,
      List.nodup_cons] at hnd
    obtain ⟨hndpre, _, hdisj⟩ := hnd
    have hfresh0 : ∀ t ∈ pre, ledgerHas (c0 ++ ([] : List Stmt)) t.name v
        = false := by
      intro t ht
      rw [List.append_nil]
      exact hfresh t (List.mem_append.mpr (Or.inl ht))
    rw [runOps_clean v (tf :: post) pre c0 [] hpre hfresh0 hndpre]
    rw [List.nil_append]
    have htfpre : tf.name ∉ pre.map TaskSpec.name := by
      intro hc
      exact hdisj hc (List.mem_cons_self _ _)
    have h1 : ledgerHas (c0 ++ (pre.map (taskStmts v)).flatten)
        tf.name v = false := by
      rw [ledgerHas_append, ledgerHas_flatten,
        hfresh tf (List.mem_append.mpr (Or.inr (List.mem_cons_self _ _))),
        any_name_false htfpre]
      rfl
    simp only [runOps, h1, htf, Bool.false_eq_true, if_false, if_true]

/-- C1, witness: a clean task, a DDL task returning the implicitCommits
marker, a clean task, a failing task and a successor. The run fails,
the first task and the DDL task stay committed with their ledger rows,
and nothing after the implicit commit survives; with the failure moved
before the implicit commit, nothing at all survives. -/
theorem c1_witness :
    runOps "1.0"
        ([⟨"t1", ["e1"], false, false⟩] ++ ⟨"t2", ["ddl"], true, false⟩ ::
          ([⟨"t3", ["e3"], false, false⟩] ++ ⟨"t4", ["e4"], false, true⟩ ::
            [⟨"t5", ["e5"], false, false⟩])) [] [] =
      ([.effect "e1", .ledgerRow "t1" "1.0", .effect "ddl",
        .ledgerRow "t2" "1.0"], some (.migrationScript "t4"))
    ∧ runOps "1.0"
        ([⟨"t1", ["e1"], false, false⟩] ++ ⟨"t4", ["e4"], false, true⟩ ::
          [⟨"t5", ["e5"], false, false⟩]) [] [] =
      ([], some (.migrationScript "t4")) :=
  ⟨c1_implicit_commit_boundary.1 "1.0" []
      [⟨"t1", ["e1"], false, false⟩] [⟨"t3", ["e3"], false, false⟩]
      [⟨"t5", ["e5"], false, false⟩] ⟨"t2", ["ddl"], true, false⟩
      ⟨"t4", ["e4"], false, true⟩ rfl rfl rfl (by decide) (by decide)
      (by decide) (by decide),
    c1_implicit_commit_boundary.2 "1.0" []
      [⟨"t1", ["e1"], false, false⟩] [⟨"t5", ["e5"], false, false⟩]
      ⟨"t4", ["e4"], false, true⟩ rfl (by decide) (by decide)
      (by decide)⟩

end KM
